import Mathlib

/-!
Verification of the QUIT (QUantitative Imaging Tools) repository sample:
shallow Lean embeddings of the voxel-wise image-generation and model-fitting
helpers, together with theorems settling the specification claims.

Scalars are embedded as exact rationals (`ℚ`): the claims under study are
about control flow, array shapes and algebraic identities, not about
floating-point rounding.
-/

namespace QUIT

/-! ## Polynomial image generation (`itk::PolynomialImage`, qipolygen.cpp)

`GenerateData` walks the output image's largest possible region with an
index-aware iterator, in lockstep with an optional mask iterator over the
same region.  At each voxel it either evaluates the polynomial at the
voxel's physical coordinates (mask absent, or mask value truthy/non-zero)
or writes 0 (mask value zero).

The region of a 3-D volume is embedded as the list of all integer index
triples below the per-dimension sizes; the reference image's
`TransformIndexToPhysicalPoint` is embedded as a function `phys` from
indices to physical coordinates, and the polynomial's `value` method as a
function `poly` on physical coordinates (faithful to the source, which is
parametric in the reference image and the polynomial object). -/

abbrev Idx3 := ℕ × ℕ × ℕ

abbrev Point3 := ℚ × ℚ × ℚ

/-- The index region of an `n1 × n2 × n3` volume: all triples `(i, j, k)`
with `i < n1`, `j < n2`, `k < n3`, in the iteration order of the region
walk. -/
def region3d (n1 n2 n3 : ℕ) : List Idx3 :=
  (List.range n1).product ((List.range n2).product (List.range n3))

/-- Whether `GenerateData` evaluates the polynomial at a voxel:
`!mask || maskIter.Get()` — no mask connected, or the mask voxel is
truthy (non-zero). -/
def maskKeep (mask : Option (Idx3 → ℚ)) (ix : Idx3) : Bool :=
  match mask with
  | none => true
  | some m => decide (m ix ≠ 0)

/-- The value `GenerateData` stores at a voxel: the polynomial evaluated
at the voxel's physical point when the mask keeps it, 0 otherwise
(the `imageIt.Set(val)` / `imageIt.Set(0)` branches). -/
def voxelValue (mask : Option (Idx3 → ℚ)) (phys : Idx3 → Point3)
    (poly : Point3 → ℚ) (ix : Idx3) : ℚ :=
  if maskKeep mask ix then poly (phys ix) else 0

/-- The sequence of `imageIt.Set` writes performed by
`PolynomialImage::GenerateData` over the whole output region: one write
per region index, in iteration order. -/
def generateDataWrites (n1 n2 n3 : ℕ) (mask : Option (Idx3 → ℚ))
    (phys : Idx3 → Point3) (poly : Point3 → ℚ) : List (Idx3 × ℚ) :=
  (region3d n1 n2 n3).map (fun ix => (ix, voxelValue mask phys poly ix))

/-- The voxels for which `GenerateData` actually evaluates `m_poly.value`
(the true branch of the mask test). -/
def evaluatedIndices (n1 n2 n3 : ℕ) (mask : Option (Idx3 → ℚ)) : List Idx3 :=
  (region3d n1 n2 n3).filter (fun ix => maskKeep mask ix)

theorem mem_region3d {n1 n2 n3 : ℕ} {ix : Idx3} :
    ix ∈ region3d n1 n2 n3 ↔ ix.1 < n1 ∧ ix.2.1 < n2 ∧ ix.2.2 < n3 := by
  obtain ⟨i, j, k⟩ := ix
  simp [region3d, List.pair_mem_product, List.mem_range]

theorem nodup_region3d (n1 n2 n3 : ℕ) : (region3d n1 n2 n3).Nodup :=
  (List.nodup_range n1).product ((List.nodup_range n2).product (List.nodup_range n3))

/-- **C1.** After `PolynomialImage::GenerateData` completes, a voxel with a
zero mask value holds exactly 0 and the polynomial is never evaluated
there, while a voxel with no mask connected, or with a non-zero mask
value, holds the polynomial evaluated at that voxel's physical
coordinates. -/
theorem polynomialImage_mask_skip (n1 n2 n3 : ℕ) (m : Idx3 → ℚ)
    (phys : Idx3 → Point3) (poly : Point3 → ℚ) (ix : Idx3)
    (hix : ix ∈ region3d n1 n2 n3) :
    ((ix, voxelValue (some m) phys poly ix) ∈
        generateDataWrites n1 n2 n3 (some m) phys poly) ∧
    (m ix = 0 → voxelValue (some m) phys poly ix = 0 ∧
        ix ∉ evaluatedIndices n1 n2 n3 (some m)) ∧
    (m ix ≠ 0 → voxelValue (some m) phys poly ix = poly (phys ix)) ∧
    voxelValue none phys poly ix = poly (phys ix) := by
  refine ⟨List.mem_map_of_mem _ hix, fun h0 => ⟨?_, ?_⟩, fun hne => ?_, ?_⟩
  · simp [voxelValue, maskKeep, h0]
  · simp [evaluatedIndices, List.mem_filter, maskKeep, h0]
  · simp [voxelValue, maskKeep, hne]
  · simp [voxelValue, maskKeep]

/-- Witness for C1 at a concrete 2×2×1 volume with a concrete mask. -/
theorem polynomialImage_mask_skip_witness :
    ((1, 0, 0) ∈ region3d 2 2 1) ∧
    (((1, 0, 0), voxelValue (some fun ix => if ix = (0, 0, 0) then 1 else 0)
        (fun _ => (0, 0, 0)) (fun _ => 7) (1, 0, 0)) ∈
      generateDataWrites 2 2 1 (some fun ix => if ix = (0, 0, 0) then 1 else 0)
        (fun _ => (0, 0, 0)) (fun _ => 7)) ∧
    ((fun ix => if ix = (0, 0, 0) then (1 : ℚ) else 0) (1, 0, 0) = 0 →
      voxelValue (some fun ix => if ix = (0, 0, 0) then 1 else 0)
        (fun _ => (0, 0, 0)) (fun _ => 7) (1, 0, 0) = 0 ∧
      (1, 0, 0) ∉ evaluatedIndices 2 2 1
        (some fun ix => if ix = (0, 0, 0) then 1 else 0)) ∧
    ((fun ix => if ix = (0, 0, 0) then (1 : ℚ) else 0) (1, 0, 0) ≠ 0 →
      voxelValue (some fun ix => if ix = (0, 0, 0) then 1 else 0)
        (fun _ => (0, 0, 0)) (fun _ => 7) (1, 0, 0) = 7) ∧
    voxelValue none (fun _ => ((0 : ℚ), (0 : ℚ), (0 : ℚ))) (fun _ => 7) (1, 0, 0) = 7 := by
  have h : ((1, 0, 0) : Idx3) ∈ region3d 2 2 1 := by decide
  exact ⟨h, polynomialImage_mask_skip 2 2 1 _ _ _ (1, 0, 0) h⟩

/-- **C2.** `GenerateData` writes each voxel of the output region exactly
once: the indices written are exactly the region, and each region index is
written exactly once regardless of mask/skip status. -/
theorem polynomialImage_writes_once (n1 n2 n3 : ℕ) (mask : Option (Idx3 → ℚ))
    (phys : Idx3 → Point3) (poly : Point3 → ℚ) (ix : Idx3)
    (hix : ix ∈ region3d n1 n2 n3) :
    ((generateDataWrites n1 n2 n3 mask phys poly).map Prod.fst
        = region3d n1 n2 n3) ∧
    ((generateDataWrites n1 n2 n3 mask phys poly).map Prod.fst).countP
        (fun a => decide (a = ix)) = 1 ∧
    (ix, voxelValue mask phys poly ix) ∈ generateDataWrites n1 n2 n3 mask phys poly := by
  have hmap : (generateDataWrites n1 n2 n3 mask phys poly).map Prod.fst
      = region3d n1 n2 n3 := by
    simp [generateDataWrites, List.map_map, Function.comp_def]
  refine ⟨hmap, ?_, List.mem_map_of_mem _ hix⟩
  rw [hmap]
  exact List.count_eq_one_of_mem (nodup_region3d n1 n2 n3) hix

/-- Witness for C2 at a concrete 2×1×3 volume with no mask. -/
theorem polynomialImage_writes_once_witness :
    (((1, 0, 2) : Idx3) ∈ region3d 2 1 3) ∧
    (((generateDataWrites 2 1 3 none (fun _ => (0, 0, 0)) (fun _ => 3)).map Prod.fst
        = region3d 2 1 3) ∧
    ((generateDataWrites 2 1 3 none (fun _ => (0, 0, 0)) (fun _ => 3)).map
        Prod.fst).countP (fun a => decide (a = ((1, 0, 2) : Idx3))) = 1 ∧
    ((1, 0, 2), voxelValue none (fun _ => (0, 0, 0)) (fun _ => 3) (1, 0, 2)) ∈
      generateDataWrites 2 1 3 none (fun _ => (0, 0, 0)) (fun _ => 3)) := by
  have h : ((1, 0, 2) : Idx3) ∈ region3d 2 1 3 := by decide
  exact ⟨h, polynomialImage_writes_once 2 1 3 none _ _ (1, 0, 2) h⟩

/-! ## The qipolygen driver (`main` in qipolygen.cpp)

After reading the reference image and the coefficient array from standard
input, `main` checks `coeff.rows() != poly.nterms()` and throws
`QI_EXCEPTION` on mismatch — before `PolynomialImage` is ever constructed
or updated — and otherwise sets the coefficients and generates the image.

`QI/Polynomial.h` is not part of the source sample, so the declared term
count `nterms` of the configured order and the coefficient-to-evaluator
map `setCoeffs`/`value` are kept abstract as parameters of the run
function; the claim under study depends only on the length check. -/

/-- The fallible part of `main` (qipolygen.cpp): the coefficient-count
check followed by image generation.  An `Except.error` models the thrown
`QI_EXCEPTION` aborting the run with no image generated or written. -/
def qipolygenRun (nterms : ℕ → ℕ) (order : ℕ) (coeffs : List ℚ)
    (n1 n2 n3 : ℕ) (mask : Option (Idx3 → ℚ)) (phys : Idx3 → Point3)
    (polyOf : List ℚ → Point3 → ℚ) : Except String (List (Idx3 × ℚ)) :=
  if coeffs.length ≠ nterms order then
    Except.error ("Require " ++ toString (nterms order) ++ " terms for "
      ++ toString order ++ " order polynomial")
  else
    Except.ok (generateDataWrites n1 n2 n3 mask phys (polyOf coeffs))

/-- **C6.** If the number of coefficients read from standard input differs
from the polynomial's declared term count for the configured order, the
run aborts with an exception and no voxel write is produced; otherwise it
proceeds to generate the full image. -/
theorem qipolygen_coeff_count_check (nterms : ℕ → ℕ) (order : ℕ)
    (coeffs : List ℚ) (n1 n2 n3 : ℕ) (mask : Option (Idx3 → ℚ))
    (phys : Idx3 → Point3) (polyOf : List ℚ → Point3 → ℚ) :
    (coeffs.length ≠ nterms order →
      qipolygenRun nterms order coeffs n1 n2 n3 mask phys polyOf
        = Except.error ("Require " ++ toString (nterms order) ++ " terms for "
            ++ toString order ++ " order polynomial")) ∧
    (coeffs.length = nterms order →
      qipolygenRun nterms order coeffs n1 n2 n3 mask phys polyOf
        = Except.ok (generateDataWrites n1 n2 n3 mask phys (polyOf coeffs))) := by
  constructor
  · intro hne
    simp [qipolygenRun, hne]
  · intro heq
    simp [qipolygenRun, heq]

/-- Witness for C6: with a declared term count of 10, a 3-coefficient
input aborts with the exception message, and a 10-coefficient input
generates the image. -/
theorem qipolygen_coeff_count_check_witness :
    (([(1 : ℚ), 2, 3].length ≠ (fun _ : ℕ => 10) 2 ∧
      qipolygenRun (fun _ => 10) 2 [(1 : ℚ), 2, 3] 1 1 1 none
          (fun _ => (0, 0, 0)) (fun _ _ => 0)
        = Except.error "Require 10 terms for 2 order polynomial") ∧
    ((List.replicate 10 (1 : ℚ)).length = (fun _ : ℕ => 10) 2 ∧
      qipolygenRun (fun _ => 10) 2 (List.replicate 10 (1 : ℚ)) 1 1 1 none
          (fun _ => (0, 0, 0)) (fun _ _ => 0)
        = Except.ok (generateDataWrites 1 1 1 none (fun _ => (0, 0, 0))
            ((fun _ _ => 0) (List.replicate 10 (1 : ℚ)))))) := by
  refine ⟨⟨by decide, ?_⟩, by decide, ?_⟩
  · exact (qipolygen_coeff_count_check (fun _ => 10) 2 [(1 : ℚ), 2, 3] 1 1 1 none
      (fun _ => (0, 0, 0)) (fun _ _ => 0)).1 (by decide)
  · exact (qipolygen_coeff_count_check (fun _ => 10) 2 (List.replicate 10 (1 : ℚ)) 1 1 1
      none (fun _ => (0, 0, 0)) (fun _ _ => 0)).2 (by decide)

/-! ## Cereal text-archive serialization of Eigen arrays (EigenCereal.h)

`Eigen::save` writes a size tag followed by the array's elements;
`Eigen::load` reads the size tag, resizes the destination when its row
count differs from the stored one, and then reads each element into the
destination in order.  A text archive is embedded as a stream of tokens
(size tags and values).  Eigen's `resize` leaves the new storage
uninitialized; it is embedded as a zero-filled fresh array, which is
immaterial because the read loop overwrites every entry. -/

inductive ArchTok
  | size (n : ℕ)
  | val (x : ℚ)
deriving DecidableEq

/-- `Eigen::save`: write the row count as a size tag, then each element. -/
def saveArr (v : List ℚ) : List ArchTok :=
  ArchTok.size v.length :: v.map ArchTok.val

/-- The element-reading loop of `Eigen::load`:
`for (i = 0; i < n_rows; i++) ar(v[i])`. -/
def loadVals : ℕ → ℕ → List ℚ → List ArchTok → Option (List ℚ × List ArchTok)
  | 0, _, dest, ar => some (dest, ar)
  | n + 1, i, dest, ArchTok.val x :: ar => loadVals n (i + 1) (dest.set i x) ar
  | _ + 1, _, _, _ => none

/-- `Eigen::load`: read the size tag, resize the destination if its length
differs, then read the elements. -/
def loadArr (dest : List ℚ) (ar : List ArchTok) : Option (List ℚ × List ArchTok) :=
  match ar with
  | ArchTok.size n :: rest =>
      loadVals n 0 (if dest.length ≠ n then List.replicate n 0 else dest) rest
  | _ => none

theorem take_succ_set (dest : List ℚ) (i : ℕ) (x : ℚ) (h : i < dest.length) :
    (dest.set i x).take (i + 1) = dest.take i ++ [x] := by
  rw [List.set_eq_take_append_cons_drop, if_pos h,
    List.take_append_eq_append_take]
  have hlen : (dest.take i).length = i := by
    rw [List.length_take]
    omega
  rw [List.take_of_length_le (by omega), hlen]
  simp

theorem loadVals_spec (xs : List ℚ) (rest : List ArchTok) :
    ∀ (i : ℕ) (dest : List ℚ), dest.length = i + xs.length →
      loadVals xs.length i dest (xs.map ArchTok.val ++ rest)
        = some (dest.take i ++ xs, rest) := by
  induction xs with
  | nil =>
      intro i dest h
      simp only [List.length_nil, Nat.add_zero] at h
      simp [loadVals, List.take_of_length_le (le_of_eq h)]
  | cons x xs ih =>
      intro i dest h
      have hlt : i < dest.length := by
        rw [h, List.length_cons]
        omega
      have hset : (dest.set i x).length = (i + 1) + xs.length := by
        rw [List.length_set, h, List.length_cons]
        omega
      calc loadVals (x :: xs).length i dest ((x :: xs).map ArchTok.val ++ rest)
          = loadVals xs.length (i + 1) (dest.set i x) (xs.map ArchTok.val ++ rest) := rfl
        _ = some ((dest.set i x).take (i + 1) ++ xs, rest) := ih (i + 1) (dest.set i x) hset
        _ = some (dest.take i ++ x :: xs, rest) := by
            rw [take_succ_set dest i x hlt]
            simp

/-- **C9.** Round trip: loading what `save` wrote yields an array with the
same row count and elementwise-equal entries, for every prior destination
length (load resizes the destination when its length differs from the
stored size), and leaves the rest of the archive untouched. -/
theorem eigenCereal_save_load_roundtrip (v dest : List ℚ) (rest : List ArchTok) :
    loadArr dest (saveArr v ++ rest) = some (v, rest) := by
  have hload : loadArr dest (saveArr v ++ rest)
      = loadVals v.length 0
          (if dest.length ≠ v.length then List.replicate v.length 0 else dest)
          (v.map ArchTok.val ++ rest) := rfl
  rw [hload]
  by_cases hlen : dest.length = v.length
  · rw [if_neg (by simp [hlen])]
    have := loadVals_spec v rest 0 dest (by simpa using hlen)
    simpa using this
  · rw [if_pos hlen]
    have := loadVals_spec v rest 0 (List.replicate v.length 0) (by simp)
    simpa using this

/-! ## `QI::ReadArray` over a string (QI/Util.h)

`ReadArray(const std::string &, Eigen::Array &)` extracts scalars from an
`istringstream` with `while (stream >> temp)`, pushing each parsed value,
then sizes the array to the number of values parsed and copies them over.
Stream extraction is embedded at character level, as `operator>>`
behaves: skip whitespace, then consume the longest numeric prefix of the
remaining input, failing exactly when that prefix is empty — so a token
such as `12ab` contributes `12` and leaves `ab` in the stream, and the
following extraction fails there.  The scalar is instantiated at natural
numbers with digit numerals (the C++ function is a template over the
scalar type). -/

/-- The numeric value of a digit string (the accumulating conversion a
stream extraction performs). -/
def natOfDigits (ds : List Char) : ℕ :=
  ds.foldl (fun n c => 10 * n + (c.toNat - 48)) 0

/-- One stream extraction (`stream >> temp`): skip whitespace, then
consume the longest digit prefix of the remaining input; fail (returning
`none`, the stream fail state) when that prefix is empty, otherwise
return the parsed value and the rest of the stream. -/
def extractNat (cs : List Char) : Option (ℕ × List Char) :=
  let cs1 := cs.dropWhile Char.isWhitespace
  if (cs1.takeWhile Char.isDigit).isEmpty then none
  else some (natOfDigits (cs1.takeWhile Char.isDigit), cs1.dropWhile Char.isDigit)

theorem extractNat_shrink {cs : List Char} {p : ℕ × List Char}
    (h : extractNat cs = some p) : p.2.length < cs.length := by
  unfold extractNat at h
  by_cases hd : ((cs.dropWhile Char.isWhitespace).takeWhile Char.isDigit).isEmpty
  · simp [hd] at h
  · simp only [hd, if_false] at h
    have h2 := congrArg Prod.snd (Option.some.inj h)
    simp at h2
    rw [← h2]
    have hle : (cs.dropWhile Char.isWhitespace).length ≤ cs.length :=
      (List.dropWhile_sublist _).length_le
    rcases hcs1 : cs.dropWhile Char.isWhitespace with _ | ⟨c, t⟩
    · rw [hcs1] at hd
      simp at hd
    · rw [hcs1] at hd hle
      rw [List.takeWhile_cons] at hd
      by_cases hdc : Char.isDigit c
      · rw [List.dropWhile_cons, if_pos hdc]
        have ht : t.length < cs.length := by
          simp at hle
          omega
        exact lt_of_le_of_lt ((List.dropWhile_sublist _).length_le) ht
      · simp [hdc] at hd

/-- The `while (stream >> temp) vals.push_back(temp)` loop: repeat
extractions until one fails, collecting the values in order.  Terminates
because every successful extraction consumes at least one character. -/
def readNatLoop (cs : List Char) : List ℕ :=
  if h : (extractNat cs).isSome then
    ((extractNat cs).get h).1 :: readNatLoop ((extractNat cs).get h).2
  else []
termination_by cs.length
decreasing_by exact extractNat_shrink (Option.some_get h).symm

theorem readNatLoop_eq_none {cs : List Char} (h : extractNat cs = none) :
    readNatLoop cs = [] := by
  rw [readNatLoop]
  simp [h]

theorem readNatLoop_eq_some {cs : List Char} {p : ℕ × List Char}
    (h : extractNat cs = some p) :
    readNatLoop cs = p.1 :: readNatLoop p.2 := by
  rw [readNatLoop]
  simp [h]

/-- `QI::ReadArray` on a string: the values collected by the extraction
loop, in order.  The function is total — no input raises an error. -/
def ReadArray (s : String) : List ℕ :=
  readNatLoop s.toList

/-- Split a character stream into whitespace-separated tokens (`acc` is
the current token, reversed). -/
def wsTokensAux : List Char → List Char → List (List Char)
  | [], acc => if acc.isEmpty then [] else [acc.reverse]
  | c :: cs, acc =>
      if c.isWhitespace then
        (if acc.isEmpty then wsTokensAux cs [] else acc.reverse :: wsTokensAux cs [])
      else wsTokensAux cs (c :: acc)

/-- The whitespace-separated tokens of the input string. -/
def strTokens (s : String) : List (List Char) :=
  wsTokensAux s.toList []

/-- Whether a whole token parses as the scalar type (the reading of
"tokens that parse" in which a token with trailing non-numeric
characters does not parse). -/
def tokenParses (t : List Char) : Bool :=
  !t.isEmpty && t.all Char.isDigit

/-- The token-level description of what the extraction loop computes:
process tokens in order; a token that is entirely digits contributes its
value and reading continues; a token with a non-empty digit prefix but
trailing non-digit characters contributes the prefix value and reading
stops (the extraction left the trailing characters in the stream, so the
next extraction fails); a token with no digit prefix stops reading with
no contribution. -/
def readTokensSpec : List (List Char) → List ℕ
  | [] => []
  | t :: ts =>
      if (t.takeWhile Char.isDigit).isEmpty then []
      else if t.all Char.isDigit then natOfDigits t :: readTokensSpec ts
      else [natOfDigits (t.takeWhile Char.isDigit)]

theorem ws_not_digit {c : Char} (h : c.isWhitespace = true) : c.isDigit = false := by
  simp [Char.isWhitespace] at h
  rcases h with ((h | h) | h) | h <;> subst h <;> decide

theorem digit_not_ws {c : Char} (h : c.isDigit = true) : c.isWhitespace = false := by
  rcases hw : c.isWhitespace with _ | _
  · rfl
  · rw [ws_not_digit hw] at h
    exact absurd h (by simp)

theorem wsTokensAux_ws_skip (cs : List Char) :
    wsTokensAux cs [] = wsTokensAux (cs.dropWhile Char.isWhitespace) [] := by
  induction cs with
  | nil => rfl
  | cons c cs ih =>
      by_cases hw : c.isWhitespace
      · rw [List.dropWhile_cons, if_pos hw, ← ih]
        simp [wsTokensAux, hw]
      · rw [List.dropWhile_cons, if_neg hw]

theorem wsTokensAux_acc (cs : List Char) :
    ∀ acc : List Char, acc ≠ [] →
      wsTokensAux cs acc
        = (acc.reverse ++ cs.takeWhile (fun c => !c.isWhitespace))
            :: wsTokensAux (cs.dropWhile (fun c => !c.isWhitespace)) [] := by
  induction cs with
  | nil =>
      intro acc hacc
      simp [wsTokensAux, List.isEmpty_iff, hacc]
  | cons c cs ih =>
      intro acc hacc
      by_cases hw : c.isWhitespace
      · have hstep : wsTokensAux (c :: cs) acc = acc.reverse :: wsTokensAux cs [] := by
          simp [wsTokensAux, hw, List.isEmpty_iff, hacc]
        have hback : wsTokensAux (c :: cs) [] = wsTokensAux cs [] := by
          simp [wsTokensAux, hw]
        rw [List.takeWhile_cons, List.dropWhile_cons, hstep]
        simp [hw, hback]
      · have hstep : wsTokensAux (c :: cs) acc = wsTokensAux cs (c :: acc) := by
          simp [wsTokensAux, hw]
        rw [List.takeWhile_cons, List.dropWhile_cons, hstep, ih (c :: acc) (by simp)]
        simp [hw]

theorem wsTokensAux_token (c : Char) (cs : List Char) (h : c.isWhitespace = false) :
    wsTokensAux (c :: cs) []
      = (c :: cs.takeWhile (fun x => !x.isWhitespace))
          :: wsTokensAux (cs.dropWhile (fun x => !x.isWhitespace)) [] := by
  have hstep : wsTokensAux (c :: cs) [] = wsTokensAux cs [c] := by
    simp [wsTokensAux, h]
  rw [hstep, wsTokensAux_acc cs [c] (by simp)]
  simp

theorem takeWhile_digit_nonWs (l : List Char) :
    (l.takeWhile (fun c => !c.isWhitespace)).takeWhile Char.isDigit
      = l.takeWhile Char.isDigit := by
  induction l with
  | nil => rfl
  | cons c l ih =>
      by_cases hd : c.isDigit
      · simp [List.takeWhile_cons, hd, digit_not_ws hd, ih]
      · by_cases hw : c.isWhitespace
        · simp [List.takeWhile_cons, hd, hw]
        · simp [List.takeWhile_cons, hd, hw]

theorem dropWhile_digit_of_token_all_digit (l : List Char)
    (h : (l.takeWhile (fun c => !c.isWhitespace)).all Char.isDigit) :
    l.dropWhile Char.isDigit = l.dropWhile (fun c => !c.isWhitespace) := by
  induction l with
  | nil => rfl
  | cons c l ih =>
      by_cases hw : c.isWhitespace
      · simp [List.dropWhile_cons, hw, ws_not_digit hw]
      · rw [List.takeWhile_cons] at h
        simp [hw] at h
        simp [List.dropWhile_cons, hw, h.1, ih (List.all_eq_true.mpr h.2)]

theorem readNatLoop_spec (n : ℕ) :
    ∀ cs : List Char, cs.length ≤ n →
      readNatLoop cs = readTokensSpec (wsTokensAux cs []) := by
  induction n with
  | zero =>
      intro cs hcs
      have hnil : cs = [] := List.length_eq_zero.mp (Nat.le_zero.mp hcs)
      subst hnil
      rw [readNatLoop_eq_none (show extractNat [] = none by decide)]
      rfl
  | succ n ih =>
      intro cs hcs
      rcases hcs1 : cs.dropWhile Char.isWhitespace with _ | ⟨c, cs'⟩
      · have hex : extractNat cs = none := by
          unfold extractNat
          rw [hcs1]
          rfl
        rw [readNatLoop_eq_none hex, wsTokensAux_ws_skip cs, hcs1]
        rfl
      · have hlen : cs'.length ≤ n := by
          have h1 : (cs.dropWhile Char.isWhitespace).length ≤ cs.length :=
            (List.dropWhile_sublist _).length_le
          rw [hcs1] at h1
          simp at h1
          omega
        have hcw : c.isWhitespace = false := by
          have hne : cs.dropWhile Char.isWhitespace ≠ [] := by
            rw [hcs1]
            exact List.cons_ne_nil c cs'
          have h3 := List.head_dropWhile_not Char.isWhitespace cs hne
          simp only [hcs1, List.head_cons] at h3
          exact h3
        rw [wsTokensAux_ws_skip cs, hcs1, wsTokensAux_token c cs' hcw]
        by_cases hdc : c.isDigit
        case neg =>
          have hex : extractNat cs = none := by
            unfold extractNat
            rw [hcs1]
            simp [List.takeWhile_cons, hdc]
          rw [readNatLoop_eq_none hex]
          simp [readTokensSpec, List.takeWhile_cons, hdc]
        · have hex : extractNat cs = some
              (natOfDigits (c :: cs'.takeWhile Char.isDigit),
               cs'.dropWhile Char.isDigit) := by
            unfold extractNat
            rw [hcs1]
            simp [List.takeWhile_cons, List.dropWhile_cons, hdc]
          rw [readNatLoop_eq_some hex]
          by_cases hall : (cs'.takeWhile (fun x => !x.isWhitespace)).all Char.isDigit
          · have htw : cs'.takeWhile Char.isDigit
                = cs'.takeWhile (fun x => !x.isWhitespace) := by
              rw [← takeWhile_digit_nonWs cs']
              exact List.takeWhile_eq_self_iff.mpr (List.all_eq_true.mp hall)
            have hdrop : cs'.dropWhile Char.isDigit
                = cs'.dropWhile (fun x => !x.isWhitespace) :=
              dropWhile_digit_of_token_all_digit cs' hall
            have hspec : readTokensSpec
                ((c :: cs'.takeWhile (fun x => !x.isWhitespace))
                  :: wsTokensAux (cs'.dropWhile (fun x => !x.isWhitespace)) [])
                = natOfDigits (c :: cs'.takeWhile (fun x => !x.isWhitespace))
                  :: readTokensSpec
                      (wsTokensAux (cs'.dropWhile (fun x => !x.isWhitespace)) []) := by
              simp [readTokensSpec, List.takeWhile_cons, hdc, hall]
            rw [hspec, htw, hdrop]
            rw [ih (cs'.dropWhile (fun x => !x.isWhitespace))
              (le_trans (List.dropWhile_sublist _).length_le hlen)]
          · have htw2 : cs'.takeWhile Char.isDigit
                = (cs'.takeWhile (fun x => !x.isWhitespace)).takeWhile Char.isDigit :=
              (takeWhile_digit_nonWs cs').symm
            have hu : (cs'.takeWhile (fun x => !x.isWhitespace)).dropWhile Char.isDigit
                ≠ [] := by
              intro h0
              exact hall (List.all_eq_true.mpr (List.dropWhile_eq_nil_iff.mp h0))
            have hsplit : cs'.dropWhile Char.isDigit
                = (cs'.takeWhile (fun x => !x.isWhitespace)).dropWhile Char.isDigit
                  ++ cs'.dropWhile (fun x => !x.isWhitespace) := by
              conv_lhs =>
                rw [← List.takeWhile_append_dropWhile (fun x => !x.isWhitespace) cs']
              rw [List.dropWhile_append]
              simp [List.isEmpty_iff, hu]
            rcases hu2 : (cs'.takeWhile (fun x => !x.isWhitespace)).dropWhile Char.isDigit
              with _ | ⟨x, u⟩
            · exact absurd hu2 hu
            · have hxd : x.isDigit = false := by
                have h4 := List.head_dropWhile_not Char.isDigit
                  (cs'.takeWhile (fun x => !x.isWhitespace)) hu
                simp only [hu2, List.head_cons] at h4
                exact h4
              have hxw : x.isWhitespace = false := by
                have hxmem : x ∈ cs'.takeWhile (fun x => !x.isWhitespace) := by
                  have hsub := List.dropWhile_sublist
                    (l := cs'.takeWhile (fun x => !x.isWhitespace)) Char.isDigit
                  rw [hu2] at hsub
                  exact hsub.subset (List.mem_cons_self x u)
                have h5 := List.mem_takeWhile_imp hxmem
                simpa using h5
              have hnone : extractNat
                  (x :: (u ++ cs'.dropWhile (fun x => !x.isWhitespace))) = none := by
                unfold extractNat
                rw [List.dropWhile_cons]
                simp [hxw, List.takeWhile_cons, hxd]
              rw [hsplit, hu2, List.cons_append, readNatLoop_eq_none hnone]
              have hnall : (c :: cs'.takeWhile (fun x => !x.isWhitespace)).all
                  Char.isDigit = false := by
                simp [List.all_cons, hall]
              have hspec2 : readTokensSpec
                  ((c :: cs'.takeWhile (fun x => !x.isWhitespace))
                    :: wsTokensAux (cs'.dropWhile (fun x => !x.isWhitespace)) [])
                  = [natOfDigits (c ::
                      (cs'.takeWhile (fun x => !x.isWhitespace)).takeWhile Char.isDigit)] := by
                simp [readTokensSpec, List.takeWhile_cons, hdc, hnall]
              rw [hspec2, htw2]

/-- **C10 counterexample.** The claimed length law — the output length
equals the number of leading whitespace-separated tokens that parse as
the scalar type — is false of `QI::ReadArray`: on `"12ab"` the extraction
takes the numeric prefix `12` before failing, so the output is `[12]` of
length 1 while no token fully parses (strict reading gives 0); and on
`"12 34ab 56"` the output is `[12, 34]` of length 2 while under the
extraction-succeeds reading all 3 tokens parse. -/
theorem readArray_token_law_counterexample :
    ReadArray "12ab" = [12] ∧
    ((strTokens "12ab").takeWhile tokenParses).length = 0 ∧
    (ReadArray "12ab").length ≠ ((strTokens "12ab").takeWhile tokenParses).length ∧
    ReadArray "12 34ab 56" = [12, 34] ∧
    ((strTokens "12 34ab 56").takeWhile
      (fun t => !(t.takeWhile Char.isDigit).isEmpty)).length = 3 ∧
    (ReadArray "12 34ab 56").length ≠ 3 := by
  have e1 : ReadArray "12ab" = [12] := by
    show readNatLoop "12ab".toList = [12]
    rw [readNatLoop_eq_some (p := (12, ['a', 'b'])) (by decide)]
    rw [readNatLoop_eq_none (by decide)]
  have e2 : ReadArray "12 34ab 56" = [12, 34] := by
    show readNatLoop "12 34ab 56".toList = [12, 34]
    rw [readNatLoop_eq_some (p := (12, (' ' :: "34ab 56".toList))) (by decide)]
    rw [readNatLoop_eq_some (p := (34, "ab 56".toList)) (by decide)]
    rw [readNatLoop_eq_none (by decide)]
  refine ⟨e1, by decide, ?_, e2, by decide, ?_⟩
  · rw [e1]
    decide
  · rw [e2]
    decide

/-- **C10 (amended).** For every input string, `QI::ReadArray` never
raises an error and returns, in order, the values of successive stream
extractions, each taking the longest digit prefix after whitespace:
equivalently, it processes whitespace-separated tokens in order, a fully
numeric token contributing its value, a token with a non-empty numeric
prefix but trailing non-numeric characters contributing its prefix value
and ending the read, and a token with no numeric prefix ending the read
with no contribution; in particular an input with no leading parseable
numeral, including the empty string, yields a zero-length array. -/
theorem readArray_prefix_extraction (s : String) :
    ReadArray s = readTokensSpec (strTokens s) ∧ ReadArray "" = [] :=
  ⟨readNatLoop_spec s.toList.length s.toList le_rfl,
   readNatLoop_eq_none (by decide)⟩

/-! ## SSFP ellipse signal (`QI::EllipseToSignal`, EllipseHelpers.h)

The C++ function is a template over the scalar type `T` (for automatic
differentiation), requiring only that `cos`/`sin` be available on `T`.
The embedding is likewise parametric: scalars are rationals and the
trigonometric functions are explicit parameters `tcos`, `tsin`; the claim
is settled under the hypothesis that they satisfy the angle-addition
formulas (as the real `cos`/`sin` do). -/

/-- `QI::EllipseToSignal`: the ellipse magnetization at each phase
increment, returned with real and imaginary parts concatenated
(`result << re_m, im_m`) instead of as actual complex numbers. -/
def EllipseToSignal (tcos tsin : ℚ → ℚ) (G a b theta0 psi0 : ℚ)
    (phi : List ℚ) : List ℚ :=
  let theta : List ℚ := phi.map (fun x => theta0 - x)
  let psi : ℚ := theta0 / 2 + psi0
  let re_m : List ℚ := theta.map (fun t =>
    (tcos psi - a * (tcos t * tcos psi - tsin t * tsin psi)) * G / (1 - b * tcos t))
  let im_m : List ℚ := theta.map (fun t =>
    (tsin psi - a * (tcos t * tsin psi + tsin t * tcos psi)) * G / (1 - b * tcos t))
  re_m ++ im_m

/-- The ellipse magnetization at one phase increment as a complex number
`(exp(i psi) - a exp(i (theta + psi))) G / (1 - b cos theta)`,
represented as a (real, imaginary) pair.  This is the specification-side
description of the quantity whose components `EllipseToSignal`
concatenates. -/
def EllipseMagnetization (tcos tsin : ℚ → ℚ) (G a b theta0 psi0 : ℚ)
    (x : ℚ) : ℚ × ℚ :=
  let theta : ℚ := theta0 - x
  let psi : ℚ := theta0 / 2 + psi0
  let denom : ℚ := 1 - b * tcos theta
  ((tcos psi - a * tcos (theta + psi)) * G / denom,
   (tsin psi - a * tsin (theta + psi)) * G / denom)

/-- **C3.** When `tcos`/`tsin` satisfy the angle-addition formulas,
`EllipseToSignal` returns an array of length `2n` whose entry `i` (for
`i < n`) is the real part and whose entry `n + i` is the imaginary part
of the ellipse magnetization at phase increment `phi[i]`: the complex
signal is returned as concatenated independent real-valued components. -/
theorem ellipseToSignal_concat_re_im (tcos tsin : ℚ → ℚ)
    (hcos : ∀ x y, tcos (x + y) = tcos x * tcos y - tsin x * tsin y)
    (hsin : ∀ x y, tsin (x + y) = tsin x * tcos y + tcos x * tsin y)
    (G a b theta0 psi0 : ℚ) (phi : List ℚ) :
    (EllipseToSignal tcos tsin G a b theta0 psi0 phi).length = 2 * phi.length ∧
    ∀ i, (hi : i < phi.length) →
      (EllipseToSignal tcos tsin G a b theta0 psi0 phi)[i]?
        = some (EllipseMagnetization tcos tsin G a b theta0 psi0 phi[i]).1 ∧
      (EllipseToSignal tcos tsin G a b theta0 psi0 phi)[phi.length + i]?
        = some (EllipseMagnetization tcos tsin G a b theta0 psi0 phi[i]).2 := by
  constructor
  · simp [EllipseToSignal]
    ring
  · intro i hi
    have hre : (EllipseToSignal tcos tsin G a b theta0 psi0 phi)[i]?
        = some ((tcos (theta0 / 2 + psi0)
            - a * (tcos (theta0 - phi[i]) * tcos (theta0 / 2 + psi0)
                - tsin (theta0 - phi[i]) * tsin (theta0 / 2 + psi0))) * G
            / (1 - b * tcos (theta0 - phi[i]))) := by
      rw [EllipseToSignal]
      rw [List.getElem?_append_left (by simpa using hi)]
      simp [List.getElem?_map, List.getElem?_eq_getElem hi]
    have him : (EllipseToSignal tcos tsin G a b theta0 psi0 phi)[phi.length + i]?
        = some ((tsin (theta0 / 2 + psi0)
            - a * (tcos (theta0 - phi[i]) * tsin (theta0 / 2 + psi0)
                + tsin (theta0 - phi[i]) * tcos (theta0 / 2 + psi0))) * G
            / (1 - b * tcos (theta0 - phi[i]))) := by
      rw [EllipseToSignal]
      rw [List.getElem?_append_right (by simp)]
      simp [List.getElem?_map, List.getElem?_eq_getElem hi]
    constructor
    · rw [hre, EllipseMagnetization]
      simp only [hcos]
    · rw [him, EllipseMagnetization]
      simp only [hsin]
      ring_nf

/-- Witness for C3 with constant trigonometric functions satisfying the
addition formulas, at a two-element phase array. -/
theorem ellipseToSignal_concat_re_im_witness :
    ((EllipseToSignal (fun _ => 1) (fun _ => 0) 2 (1/2) (1/3) 1 0
        [0, 1]).length = 2 * ([0, 1] : List ℚ).length) ∧
    ((EllipseToSignal (fun _ => 1) (fun _ => 0) 2 (1/2) (1/3) 1 0 [0, 1])[0]?
        = some (EllipseMagnetization (fun _ => 1) (fun _ => 0) 2 (1/2) (1/3) 1 0
            (0 : ℚ)).1 ∧
      (EllipseToSignal (fun _ => 1) (fun _ => 0) 2 (1/2) (1/3) 1 0 [0, 1])[2 + 0]?
        = some (EllipseMagnetization (fun _ => 1) (fun _ => 0) 2 (1/2) (1/3) 1 0
            (0 : ℚ)).2) := by
  have h := ellipseToSignal_concat_re_im (fun _ => 1) (fun _ => 0)
    (fun x y => by norm_num) (fun x y => by norm_num) 2 (1/2) (1/3) 1 0 [0, 1]
  exact ⟨h.1, h.2 0 (by decide)⟩

/-! ## The Ramani quantitative-MT model (`RamaniModel`, qi_qmt.cpp)

`RamaniModel` derives from `QI::Model<double, double, 5, 3, 1, 2>`: 5
varying parameters (`NV`), 3 fixed covariates (`NF`), and 2 derived
quantities.  Scalars are rationals; the mathematical primitives defined
outside the source sample (`sqrt`, `M_PI`, the lineshape value functions
of Lineshape.h) are abstracted as explicit parameters, and
`QI::ZSpecSequence` (MTSequences.h) is modelled from the spec. -/

/-- The declared varying-parameter count of `RamaniModel`
(`QI::Model<double, double, 5, 3, 1, 2>`). -/
def NV : ℕ := 5

/-- The declared fixed-covariate count of `RamaniModel`. -/
def NF : ℕ := 3

/-- `RamaniModel::bounds_lo`: `{0.1, 1.e-6, 0.1e-6, 0.01, 1.}`. -/
def bounds_lo : List ℚ := [1/10, 1/1000000, 1/10000000, 1/100, 1]

/-- `RamaniModel::bounds_hi`: `{10., 0.99, 100.e-6, 1., 100.}`. -/
def bounds_hi : List ℚ := [10, 99/100, 1/10000, 1, 100]

/-- `RamaniModel::start`: `{1., 0.1, 10.e-6, 0.1, 10.}`. -/
def start : List ℚ := [1, 1/10, 1/100000, 1/10, 10]

/-- **C4.** The declared bound and start vectors of `RamaniModel` all have
length equal to the model's declared varying-parameter count of 5, and
they satisfy the bounds invariant componentwise:
`bounds_lo[i] <= start[i] <= bounds_hi[i]` for every `i` in `0..4`. -/
theorem ramani_bounds_invariant :
    bounds_lo.length = NV ∧ bounds_hi.length = NV ∧ start.length = NV ∧
    NV = 5 ∧
    ∀ i : Fin 5, bounds_lo.getD i.val 0 ≤ start.getD i.val 0 ∧
      start.getD i.val 0 ≤ bounds_hi.getD i.val 0 := by
  refine ⟨rfl, rfl, rfl, rfl, ?_⟩
  intro i
  fin_cases i <;> constructor <;> norm_num [bounds_lo, bounds_hi, start]

/-- Modelled from the spec: the clamping helper the source applies to
derived quantities (`QI::Clamp`, defined outside the source sample) —
"ad-hoc clamping of derived quantities to a numeric range": the value
clamped to the closed interval `[lo, hi]`. -/
def Clamp (v lo hi : ℚ) : ℚ := min (max v lo) hi

/-- `RamaniModel::derived`: computes the derived quantities
`T1_f = Clamp(1/R1_f, 0, 5)` and `k_bf = k * f_b / (1 - f_b)` from the
varying parameters, the fixed covariates, and the construction-time bound
pool relaxation rate `R1_b`. -/
def RamaniDerived (R1_b : ℚ) (v : Fin 5 → ℚ) (f : Fin 3 → ℚ) : ℚ × ℚ :=
  let f_b := v 1
  let k := v 4
  let T1_obs := f 2
  let F := f_b / (1 - f_b)
  let k_bf := k * F
  let R1_obs := 1 / T1_obs
  let R1_f := R1_obs - (k_bf * (R1_b - R1_obs)) / (R1_b - R1_obs + k)
  (Clamp (1 / R1_f) 0 5, k_bf)

/-- **C5.** `RamaniModel::derived` is a pure function of the varying and
fixed vectors (for a fixed model instance): its first output `T1_f`
always lies in the closed interval `[0, 5]` because it is clamped to that
range, and its second output `k_bf` equals `v[4] * v[1] / (1 - v[1])`
unclamped. -/
theorem ramani_derived_clamp (R1_b : ℚ) (v : Fin 5 → ℚ) (f : Fin 3 → ℚ) :
    0 ≤ (RamaniDerived R1_b v f).1 ∧ (RamaniDerived R1_b v f).1 ≤ 5 ∧
    (RamaniDerived R1_b v f).2 = v 4 * v 1 / (1 - v 1) := by
  refine ⟨?_, ?_, ?_⟩
  · exact le_min (le_max_right _ _) (by norm_num)
  · exact min_le_right _ _
  · exact (mul_div_assoc _ _ _).symm

/-- Modelled from the spec: the MT saturation sequence descriptor
(`QI::ZSpecSequence`, MTSequences.h, absent from the source sample) — the
caller-supplied acquisition-protocol descriptor: per-sample saturation
offsets and angles with pulse integral and timing parameters. -/
structure ZSpecSequence where
  sat_f0 : List ℚ
  sat_angle : List ℚ
  pulse_p1 : ℚ
  pulse_p2 : ℚ
  Trf : ℚ
  TR : ℚ

/-- `ZSpecSequence::size`: the number of samples in the protocol
descriptor (the length of the saturation-offset array). -/
def ZSpecSequence.size (s : ZSpecSequence) : ℕ := s.sat_f0.length

/-- The lineshape selector of `RamaniModel` (`QI::Lineshapes`). -/
inductive Lineshapes
  | Gaussian
  | Lorentzian
  | SuperLorentzian
  | Interpolated
deriving DecidableEq

/-- Modelled from the spec: the mathematical primitives used by the
signal function whose definitions live outside the source sample —
`sqrt`, `M_PI`, and the lineshape value functions
`QI::Gaussian`/`QI::Lorentzian`/`QI::SuperLorentzian` of Lineshape.h —
abstracted as parameters. -/
structure SignalPrims where
  sqrtQ : ℚ → ℚ
  piQ : ℚ
  gaussianLS : ℚ → ℚ → ℚ
  lorentzianLS : ℚ → ℚ → ℚ
  superLorentzianLS : ℚ → ℚ → ℚ

/-- `RamaniModel`'s construction-time configuration: sequence descriptor,
bound-pool `R1_b`, lineshape selector and optional interpolated
lineshape.  All fields are immutable after construction (`const` in the
source). -/
structure RamaniModel where
  sequence : ZSpecSequence
  R1_b : ℚ
  lineshape : Lineshapes
  interp : ℚ → ℚ → ℚ

/-- `RamaniModel::input_size`: returns `sequence.size()`, ignoring its
integer argument (`const int /* Unused */`). -/
def RamaniModel.input_size (m : RamaniModel) (_x : ℤ) : ℕ :=
  m.sequence.size

/-- The `switch (lineshape)` dispatch inside `RamaniModel::signal`. -/
def lineshapeValue (P : SignalPrims) (m : RamaniModel) (x T2b : ℚ) : ℚ :=
  match m.lineshape with
  | Lineshapes.Gaussian => P.gaussianLS x T2b
  | Lineshapes.Lorentzian => P.lorentzianLS x T2b
  | Lineshapes.SuperLorentzian => P.superLorentzianLS x T2b
  | Lineshapes.Interpolated => m.interp x T2b

/-- `RamaniModel::signal`: the Ramani steady-state MT signal, one entry
per saturation sample.  Eigen's elementwise array arithmetic over
`sat_f0`/`sat_angle` is embedded as a map over the zipped sample list. -/
def RamaniModel.signal (P : SignalPrims) (m : RamaniModel)
    (v : Fin 5 → ℚ) (f : Fin 3 → ℚ) : List ℚ :=
  let M0_f := v 0
  let f_b := v 1
  let T2b := v 2
  let T2_f := v 3
  let k := v 4
  let f0 := f 0
  let B1 := f 1
  let T1_obs := f 2
  let F := f_b / (1 - f_b)
  let k_bf := k * F
  let R1_obs := 1 / T1_obs
  let R1_f := R1_obs - (k_bf * (m.R1_b - R1_obs)) / (m.R1_b - R1_obs + k)
  (List.zip m.sequence.sat_f0 m.sequence.sat_angle).map (fun sample =>
    let lsv := lineshapeValue P m (sample.1 + f0) T2b
    let w_cwpe := (B1 * sample.2 / m.sequence.pulse_p1)
      * P.sqrtQ (m.sequence.pulse_p2 / (m.sequence.Trf * m.sequence.TR))
    let R_rfb := P.piQ * (w_cwpe * w_cwpe) * lsv
    M0_f * (m.R1_b * k_bf / R1_f + R_rfb + m.R1_b + k) /
      (k_bf / R1_f * (m.R1_b + R_rfb) +
        (1 + (w_cwpe / (2 * P.piQ * sample.1))^2 * 1 / (R1_f * T2_f))
          * (R_rfb + m.R1_b + k)))

/-- **C7.** `RamaniModel::signal` is a pure function of its arguments and
the model's construction-time configuration: two evaluations on the same
model instance with equal varying-parameter and fixed-covariate vectors
return equal signal arrays.  The embedding of the `const` method as a
pure function over the immutable model record reflects that evaluation
modifies no model state. -/
theorem ramani_signal_pure (P : SignalPrims) (m : RamaniModel)
    (v v' : Fin 5 → ℚ) (f f' : Fin 3 → ℚ) (hv : v = v') (hf : f = f') :
    RamaniModel.signal P m v f = RamaniModel.signal P m v' f' := by
  rw [hv, hf]

/-- Witness for C7 at a concrete model instance and concrete vectors. -/
theorem ramani_signal_pure_witness :
    RamaniModel.signal
      ⟨fun x => x, 3, fun x t => x * t, fun x t => x + t, fun x t => x - t⟩
      ⟨⟨[1, 2], [1, 1], 1, 1, 1, 1⟩, 5/2, Lineshapes.Gaussian, fun _ _ => 0⟩
      (fun _ => 1) (fun _ => 1)
    = RamaniModel.signal
      ⟨fun x => x, 3, fun x t => x * t, fun x t => x + t, fun x t => x - t⟩
      ⟨⟨[1, 2], [1, 1], 1, 1, 1, 1⟩, 5/2, Lineshapes.Gaussian, fun _ _ => 0⟩
      (fun _ => 1) (fun _ => 1) :=
  ramani_signal_pure _ _ _ _ _ _ rfl rfl

/-- **C8.** `RamaniModel::input_size` returns the size of the sequence
descriptor the model was constructed with, ignoring its integer
argument: the expected-signal length is determined by the caller-supplied
protocol descriptor. -/
theorem ramani_input_size_from_sequence (m : RamaniModel) (x y : ℤ) :
    m.input_size x = m.sequence.size ∧ m.input_size x = m.input_size y :=
  ⟨rfl, rfl⟩

end QUIT
